import Mathlib

/-!
Verification of the MarkdownToRender repository.

This file gives a shallow embedding of the two renderer modules
(`src/markdownrenderer.js` and `src/markdowntorender.js`) and settles the
frozen claims about them.  External collaborators (the `marked` baseline
grammar, the Prism syntax highlighter, the KaTeX math formatter) are passed
as explicit function parameters, following the spec's collaborator
boundaries.  The `Math.random()` call used for mermaid container ids is
modelled as an explicit string parameter `rand`.
-/

namespace M2R

/-- Model of the JavaScript whitespace class `\s` (and of `String.prototype.trim`)
restricted to the ASCII range used by this code base. -/
def isJsWs (c : Char) : Bool :=
  c = ' ' || c = '\t' || c = '\n' || c = '\r' || c = '\x0b' || c = '\x0c'

/-- One character of the HTML-escaping used by both code renderers
(`&`, `<`, `>`, `"`, `'` in this replacement order, which is equivalent to a
single character-wise pass). -/
def escapeHtmlChar (c : Char) : List Char :=
  if c = '&' then "&amp;".data
  else if c = '<' then "&lt;".data
  else if c = '>' then "&gt;".data
  else if c = '"' then "&quot;".data
  else if c = '\'' then "&#039;".data
  else [c]

/-- The sequence of `.replace` calls escaping HTML special characters in
`markdownrenderer.js` (`customRenderer.code`). -/
def escapeHtml (s : String) : String :=
  ⟨(s.data.map escapeHtmlChar).flatten⟩

/-- `dropWhile` from the left: the leading-whitespace part of `trim`. -/
def trimLeftL (l : List Char) : List Char := l.dropWhile isJsWs

/-- Dropping trailing whitespace: the trailing part of `trim`. -/
def trimRightL (l : List Char) : List Char := (l.reverse.dropWhile isJsWs).reverse

/-- Model of JavaScript `String.prototype.trim()`. -/
def jsTrim (s : String) : String := ⟨trimRightL (trimLeftL s.data)⟩

/-! ## markdownrenderer.js -/

/-- One match of the task-list normalisation pattern
`^([\s]*)[-*+](\s*)\[([ xX])\](\s*)` of `preProcessMarkdown` at a
line-start position.  Returns the indent capture, the checkbox letter, the
input after the match, and whether the matched text ends with a newline
(which decides whether the next scan position is a line start). -/
def taskPrefixMatch (l : List Char) : Option (List Char × Char × List Char × Bool) :=
  let indent := l.takeWhile isJsWs
  match l.dropWhile isJsWs with
  | b :: l2 =>
    if b = '-' ∨ b = '*' ∨ b = '+' then
      match l2.dropWhile isJsWs with
      | '[' :: m :: ']' :: l4 =>
        if m = ' ' ∨ m = 'x' ∨ m = 'X' then
          let sp := l4.takeWhile isJsWs
          some (indent, m, l4.dropWhile isJsWs,
            (match sp.reverse with | '\n' :: _ => true | _ => false))
        else none
      | _ => none
    else none
  | [] => none

/-- Scanner applying the global multiline task-list replacement of
`preProcessMarkdown`: each match at a line start is replaced by
`$1- [$3] `.  Fuel-driven; the top-level wrapper supplies enough fuel. -/
def taskReplAux : Nat → Bool → List Char → List Char
  | 0, _, l => l
  | _ + 1, _, [] => []
  | fuel + 1, atStart, c :: rest =>
    if atStart then
      match taskPrefixMatch (c :: rest) with
      | some (indent, m, rest', nl) =>
        indent ++ ('-' :: ' ' :: '[' :: m :: ']' :: ' ' :: taskReplAux fuel nl rest')
      | none => c :: taskReplAux fuel (c = '\n') rest
    else c :: taskReplAux fuel (c = '\n') rest

/-- Splits a character list at the first occurrence of `$$`, or fails. -/
def findDollars : List Char → Option (List Char × List Char)
  | '$' :: '$' :: rest => some ([], rest)
  | c :: rest => (findDollars rest).map (fun p => (c :: p.1, p.2))
  | [] => none

/-- The lazy body match of `/\$\$([\s\S]+?)\$\$/`: at least one content
character, then the closing `$$`. -/
def findClose : List Char → Option (List Char × List Char)
  | [] => none
  | c :: rest => (findDollars rest).map (fun p => (c :: p.1, p.2))

/-- Scanner applying the global block-math re-wrapping replacement of
`preProcessMarkdown`: every `/\$\$([\s\S]+?)\$\$/` match becomes
`\n$$\n{trimmed content}\n$$\n`. -/
def mathWrapAux : Nat → List Char → List Char
  | 0, l => l
  | _ + 1, [] => []
  | fuel + 1, c :: rest =>
    if c = '$' then
      match rest with
      | '$' :: rest2 =>
        match findClose rest2 with
        | some (content, after) =>
          '\n' :: '$' :: '$' :: '\n' ::
            (trimRightL (trimLeftL content) ++
              '\n' :: '$' :: '$' :: '\n' :: mathWrapAux fuel after)
        | none => c :: mathWrapAux fuel rest
      | _ => c :: mathWrapAux fuel rest
    else c :: mathWrapAux fuel rest

/-- `preProcessMarkdown` from `markdownrenderer.js`: normalises task-list
bullets, then re-wraps `$$...$$` block-math spans on their own lines. -/
def preProcessMarkdown (markdown : String) : String :=
  if markdown = "" then ""
  else
    let processed : List Char := taskReplAux markdown.data.length true markdown.data
    ⟨mathWrapAux processed.length processed⟩

/-- The `language ? ` class="language-${language}"` : ''` expression shared
by both code renderers (JavaScript truthiness: `undefined` and the empty
string give no class attribute). -/
def langClassOf (language : Option String) : String :=
  match language with
  | some l => if l = "" then "" else " class=\"language-" ++ l ++ "\""
  | none => ""

/-- Model of `String.prototype.toLowerCase()` on the ASCII range, as a
character-wise map (kernel-reducible). -/
def asciiLower (s : String) : String := ⟨s.data.map Char.toLower⟩

/-- `customRenderer.code` from `markdownrenderer.js`.  `prismHas` models the
`Prism.languages[lang]` lookup, `prismHighlight` the (fallible)
`Prism.highlight` call, and `rand` the `Math.random()`-derived id suffix. -/
def customRenderer_code (highlight : Bool) (prismHas : String → Bool)
    (prismHighlight : String → String → Except String String)
    (rand : String) (code : String) (language : Option String) : String :=
  if asciiLower (language.getD "") = "mermaid" then
    "<div class=\"mermaid\" id=\"mermaid-diagram-" ++ rand ++ "\">" ++
      escapeHtml code ++ "</div>"
  else
    if highlight = true ∧ ¬ asciiLower (language.getD "") = "" ∧
        ¬ asciiLower (language.getD "") = "text" ∧
        ¬ asciiLower (language.getD "") = "plaintext" ∧
        prismHas (asciiLower (language.getD "")) = true then
      match prismHighlight code (asciiLower (language.getD "")) with
      | .ok highlighted =>
        "<pre><code" ++ langClassOf language ++ ">" ++ highlighted ++ "</code></pre>\n"
      | .error _ =>
        "<pre><code" ++ langClassOf language ++ ">" ++ escapeHtml code ++
          "</code></pre>\n"
    else
      "<pre><code" ++ langClassOf language ++ ">" ++ escapeHtml code ++
        "</code></pre>\n"

/-- `MarkdownRenderer.render` from `markdownrenderer.js`.  `parse` models
`marked.parse` with the installed extensions; it receives the custom code
renderer (through which the random id parameter flows) and may fail, which
the catch block turns into an in-page error paragraph. -/
def render_mr (parse : (String → Option String → String) → String → Except String String)
    (highlight : Bool) (prismHas : String → Bool)
    (prismHighlight : String → String → Except String String)
    (rand : String) (markdown : String) : String :=
  if jsTrim markdown = "" then "<p><em>No content to render</em></p>"
  else
    match parse (customRenderer_code highlight prismHas prismHighlight rand)
        (preProcessMarkdown (jsTrim markdown)) with
    | .ok html => html
    | .error e => "<p>Error rendering markdown: " ++ e ++ "</p>"

/-! ## Extension tokenizers of markdownrenderer.js -/

/-- The HTML emitted by the `taskLists` tokenizer for one matched item
(the template literal of `markdownrenderer.js`). -/
def taskItemHtml (checked : Bool) (text : String) : String :=
  "<li class=\"task-list-item\"><input type=\"checkbox\" " ++
    (if checked then "checked" else "") ++ " disabled> " ++ text ++ "</li>"

/-- The `taskLists` block tokenizer: the rule
`/^([-*+])\s+\[([ xX])\]\s+(.+)(?:\n|$)/` applied at the current position.
Returns `(raw, checked, label)` on success; `checked` is the
case-insensitive comparison `match[2].toLowerCase() === 'x'`.  The second
`\s+` backtracks (largest consumption first) so that `(.+)` can still match
at least one non-newline character. -/
def taskTokenize (src : String) : Option (String × Bool × String) :=
  match src.data with
  | b :: l1 =>
    if b = '-' ∨ b = '*' ∨ b = '+' then
      let sp1 := l1.takeWhile isJsWs
      if sp1.isEmpty then none
      else
        match l1.dropWhile isJsWs with
        | '[' :: m :: ']' :: l2 =>
          if m = ' ' ∨ m = 'x' ∨ m = 'X' then
            let run := l2.takeWhile isJsWs
            let rest := l2.dropWhile isJsWs
            if run.isEmpty then none
            else
              match (List.range run.length).reverse.findSome? (fun k =>
                  let jc := k + 1
                  let tail := run.drop jc ++ rest
                  let text := tail.takeWhile (fun c => ¬ c = '\n')
                  if text.isEmpty then none else some (jc, text)) with
              | some (jc, text) =>
                let tail := run.drop jc ++ rest
                let after := tail.drop text.length
                let nl : List Char := match after with | '\n' :: _ => ['\n'] | _ => []
                some (⟨b :: sp1 ++ '[' :: m :: ']' :: run.take jc ++ text ++ nl⟩,
                  m.toLower = 'x', ⟨text⟩)
              | none => none
          else none
        | _ => none
    else none
  | [] => none

/-- List-level matching of the `mathInline` tokenizer: declines when the
input starts with `$$`, otherwise applies `/^\$([^\$]+)\$/`.  Returns
`(content, raw)` on success. -/
def mathInlineMatchL (l : List Char) : Option (List Char × List Char) :=
  match l with
  | [] => none
  | c0 :: rest =>
    if c0 = '$' then
      match rest with
      | [] => none
      | r0 :: _ =>
        if r0 = '$' then none
        else
          match rest.drop (rest.takeWhile (fun c => ¬ c = '$')).length with
          | d0 :: _ =>
            if d0 = '$' then
              if (rest.takeWhile (fun c => ¬ c = '$')).isEmpty then none
              else some (rest.takeWhile (fun c => ¬ c = '$'),
                '$' :: (rest.takeWhile (fun c => ¬ c = '$') ++ ['$']))
            else none
          | [] => none
    else none

/-- The matching part of the `mathInline` tokenizer of
`markdownrenderer.js`, on strings. -/
def mathInlineMatch (src : String) : Option (String × String) :=
  (mathInlineMatchL src.data).map (fun p => (⟨p.1⟩, ⟨p.2⟩))

/-- Modelled from the spec: the baseline `marked` grammar (an external
collaborator, not part of this repository's sources) on an input that is a
single fenced code block — the lexer produces one code node carrying the
info-string language and the fence body, and the tree renderer delegates it
to the installed code emission rule.  Used to exercise the render pipeline
on concrete fenced inputs. -/
def parseFenceModel (codeRenderer : String → Option String → String)
    (src : String) : Except String String :=
  match src.data.splitOn '\n' with
  | first :: rest =>
    match first with
    | '`' :: '`' :: '`' :: langChars =>
      let body := "\n".data.intercalate (rest.takeWhile (fun l => ¬ l = "```".data))
      .ok (codeRenderer ⟨body⟩ (some ⟨langChars⟩))
    | _ => .ok src
  | [] => .ok src

/-! ## markdowntorender.js -/

/-- A math expression record extracted by the tree annotator
(`detectMathExpressions`). -/
inductive MType where
  | block
  | inline
deriving DecidableEq

/-- `{type, content, fromCodeBlock}` as pushed by `detectMathExpressions`. -/
structure MathExpr where
  type : MType
  content : String
  fromCodeBlock : Bool := false

/-- A mermaid diagram record collected by `detectMermaidDiagrams`. -/
structure MermaidRec where
  content : String
  path : List String

/-- Global literal string replacement on character lists: the semantics of
`String.prototype.replace` with a `g`-flagged pattern whose source is an
escaped literal — leftmost match, non-overlapping, replacement text is not
rescanned.  An empty pattern never fires (unreachable in this code base). -/
def replaceAllL (pat rep : List Char) : List Char → List Char
  | [] => []
  | c :: rest =>
    if pat ≠ [] ∧ pat <+: (c :: rest) then
      rep ++ replaceAllL pat rep ((c :: rest).drop pat.length)
    else
      c :: replaceAllL pat rep rest
termination_by l => l.length
decreasing_by
  · rename_i h
    have hp : 0 < pat.length := List.length_pos.mpr h.1
    simp only [List.length_drop, List.length_cons]
    omega
  · simp

/-- String wrapper for `replaceAllL`. -/
def replaceAllStr (pat rep s : String) : String :=
  ⟨replaceAllL pat.data rep.data s.data⟩

/-- Attempts the flexible block pattern `\$\$\s*CONTENT\s*\$\$` (from
`processMathExpressions`) at the head of `l`; returns the number of
characters consumed.  The leading `\s*` is greedy with backtracking. -/
def matchFlexAt (content : List Char) (l : List Char) : Option Nat :=
  match l with
  | '$' :: '$' :: l2 =>
    let run := l2.takeWhile isJsWs
    let rest := l2.dropWhile isJsWs
    (List.range (run.length + 1)).reverse.findSome? (fun j =>
      let tail := run.drop j ++ rest
      if content.isPrefixOf tail then
        let after := tail.drop content.length
        let run2 := after.takeWhile isJsWs
        match after.drop run2.length with
        | '$' :: '$' :: _ => some (2 + j + content.length + run2.length + 2)
        | _ => none
      else none)
  | _ => none

/-- Global replacement of the flexible block pattern; fuel-driven scanner. -/
def replaceFlexAux (content rep : List Char) : Nat → List Char → List Char
  | 0, l => l
  | _ + 1, [] => []
  | fuel + 1, c :: rest =>
    match matchFlexAt content (c :: rest) with
    | some k => rep ++ replaceFlexAux content rep fuel ((c :: rest).drop k)
    | none => c :: replaceFlexAux content rep fuel rest

/-- String wrapper for `replaceFlexAux`. -/
def replaceFlex (content rep s : String) : String :=
  ⟨replaceFlexAux content.data rep.data s.data.length s.data⟩

/-- The `/\n/g → ' '` replacement used to build `cleanContent`. -/
def newlinesToSpaces (s : String) : String :=
  ⟨s.data.map (fun c => if c = '\n' then ' ' else c)⟩

/-- One iteration of the block-expression loop of
`processMathExpressions`: KaTeX is called in display mode; failure is
caught and leaves the HTML unchanged; success applies the three pattern
replacements of the source (`patternWithNewlines`, `patternInline`, and the
`cleanContent` pattern when the content has embedded newlines). -/
def mathBlockStep (katex : String → Bool → Except String String)
    (processedHtml : String) (expr : MathExpr) : String :=
  match katex expr.content true with
  | .error _ => processedHtml
  | .ok rendered =>
    let h1 := replaceFlex expr.content rendered processedHtml
    let h2 := replaceAllStr ("$$" ++ expr.content ++ "$$") rendered h1
    if '\n' ∈ expr.content.data then
      replaceFlex (newlinesToSpaces (jsTrim expr.content)) rendered h2
    else h2

/-- One iteration of the inline-expression loop of
`processMathExpressions`: KaTeX in inline mode; failure caught; success
replaces every occurrence of the literal `$content$`. -/
def mathInlineStep (katex : String → Bool → Except String String)
    (processedHtml : String) (expr : MathExpr) : String :=
  match katex expr.content false with
  | .error _ => processedHtml
  | .ok rendered =>
    replaceAllStr ("$" ++ expr.content ++ "$") rendered processedHtml

/-- `processMathExpressions` from `markdowntorender.js`: all block
expressions are processed before all inline expressions; each KaTeX failure
is caught and leaves the HTML unchanged for that expression. -/
def processMathExpressions (katex : String → Bool → Except String String)
    (html : String) (expressions : List MathExpr) : String :=
  (expressions.filter (fun e => e.type = MType.inline)).foldl
    (mathInlineStep katex)
    ((expressions.filter (fun e => e.type = MType.block)).foldl
      (mathBlockStep katex) html)

/-- `renderer.code` from `markdowntorender.js` (the renderer installed by
`renderToHtml`).  Mermaid and math fences are handled first; a Prism
highlighting failure is not caught here and propagates (`Except.error`). -/
def renderer_code (prismHas : String → Bool)
    (prismHighlight : String → String → Except String String)
    (katex : String → Bool → Except String String)
    (code : String) (language : Option String) : Except String String :=
  if language = some "mermaid" then
    .ok ("<div class=\"mermaid\">" ++ code ++ "</div>")
  else if language = some "math" ∨ language = some "katex" ∨ language = some "tex" then
    match katex code true with
    | .ok rendered => .ok rendered
    | .error _ =>
      .ok ("<pre><code class=\"language-" ++ language.getD "" ++ "\">" ++
        code ++ "</code></pre>")
  else
    if ¬ language.getD "" = "" ∧ prismHas (language.getD "") = true then
      (prismHighlight code (language.getD "")).map
        (fun highlighted =>
          "<pre><code" ++ langClassOf language ++ ">" ++ highlighted ++ "</code></pre>")
    else
      .ok ("<pre><code" ++ langClassOf language ++ ">" ++ code ++ "</code></pre>")

/-- The AST built by `parseMarkdown`: a document node whose `children` are
the lexer's tokens plus the annotator metadata.  `children` and
`mathExpressions` are `Option`s because `renderToHtml` probes them for
JavaScript-undefined.  The token type `Tok` is the external `marked` token
shape and stays abstract. -/
structure Ast (Tok : Type) where
  children : Option (List Tok)
  version : String := "1.0"
  renderSteps : List String := []
  codeLanguages : List String := []
  mermaidDiagrams : List MermaidRec := []
  mathExpressions : Option (List MathExpr) := none

/-- `parseMarkdown` from `markdowntorender.js`.  `lexer` models
`marked.lexer`; `enhance` models the in-place `enhanceCodeBlocks` pass and
`detLangs`/`detMermaid`/`detMath` model the annotator walks
(`detectCodeLanguages`, `detectMermaidDiagrams`, `detectMathExpressions`),
which traverse the external token structure.  `detectRenderSteps` returns a
constant list and is inlined. -/
def parseMarkdown {Tok : Type} (lexer : String → Except String (List Tok))
    (enhance : List Tok → List Tok)
    (detLangs : List Tok → List String) (detMermaid : List Tok → List MermaidRec)
    (detMath : List Tok → List MathExpr) (markdown : String) :
    Except String (Ast Tok) :=
  (lexer markdown).map (fun tokens0 =>
    let tokens := enhance tokens0
    { children := some tokens
      version := "1.0"
      renderSteps := ["headings", "lists", "codeBlocks", "paragraphs", "math",
        "links", "images"]
      codeLanguages := detLangs tokens
      mermaidDiagrams := detMermaid tokens
      mathExpressions := some (detMath tokens) })

/-- `renderToHtml` from `markdowntorender.js`: rejects a null AST or one
without a `children` field, installs `renderer_code`, renders via the
`marked.parser` collaborator, then runs the math substitution pass when
math expressions are present. -/
def renderToHtml {Tok : Type}
    (parser : (String → Option String → Except String String) → List Tok →
      Except String String)
    (prismHas : String → Bool)
    (prismHighlight : String → String → Except String String)
    (katex : String → Bool → Except String String)
    (ast : Option (Ast Tok)) : Except String String :=
  match ast with
  | none => .error "Invalid AST structure"
  | some a =>
    match a.children with
    | none => .error "Invalid AST structure"
    | some ch =>
      (parser (renderer_code prismHas prismHighlight katex) ch).map (fun html =>
        match a.mathExpressions with
        | some exprs =>
          if exprs.length > 0 then processMathExpressions katex html exprs else html
        | none => html)

/-- Substring test on character lists: `occursIn pat l` holds when `pat`
occurs contiguously in `l`.  Used to state which fragments the produced
HTML does and does not contain. -/
def occursIn (pat : List Char) : List Char → Bool
  | [] => decide (pat = [])
  | c :: rest => decide (pat <+: (c :: rest)) || occursIn pat rest

/-- Decidable equality for `Except`, used to evaluate renderer results on
concrete inputs. -/
instance {ε α : Type} [DecidableEq ε] [DecidableEq α] : DecidableEq (Except ε α) :=
  fun a b =>
    match a, b with
    | .ok x, .ok y =>
      if h : x = y then isTrue (by rw [h]) else isFalse (fun hc => h (Except.ok.inj hc))
    | .ok _, .error _ => isFalse (fun hc => Except.noConfusion hc)
    | .error _, .ok _ => isFalse (fun hc => Except.noConfusion hc)
    | .error x, .error y =>
      if h : x = y then isTrue (by rw [h]) else isFalse (fun hc => h (Except.error.inj hc))

/-- `_preProcessMarkdown` from `markdowntorender.js` (the identity). -/
def preProcessMarkdown_mtr (markdown : String) : String := markdown

/-- `MarkdownRenderer.render` from `markdowntorender.js`: empty (falsy)
input returns the empty string; otherwise the parse/annotate/render
pipeline runs and any failure is caught into an in-page error `div`. -/
def render_mtr {Tok : Type} (lexer : String → Except String (List Tok))
    (enhance : List Tok → List Tok)
    (detLangs : List Tok → List String) (detMermaid : List Tok → List MermaidRec)
    (detMath : List Tok → List MathExpr)
    (parser : (String → Option String → Except String String) → List Tok →
      Except String String)
    (prismHas : String → Bool)
    (prismHighlight : String → String → Except String String)
    (katex : String → Bool → Except String String)
    (markdown : String) : String :=
  if markdown = "" then ""
  else
    match (parseMarkdown lexer enhance detLangs detMermaid detMath
        (preProcessMarkdown_mtr markdown)).bind
        (fun ast => renderToHtml parser prismHas prismHighlight katex (some ast)) with
    | .ok html => html
    | .error e => "<div class=\"error\">Error rendering markdown: " ++ e ++ "</div>"

/-! ## Helper lemmas -/

theorem dropWhile_append_ws {p : Char → Bool} {w : List Char} (l : List Char)
    (h : ∀ c ∈ w, p c = true) : (w ++ l).dropWhile p = l.dropWhile p := by
  induction w with
  | nil => simp
  | cons c t ih =>
    simp only [List.cons_append, List.dropWhile_cons]
    rw [h c (by simp)]
    exact ih (fun c hc => h c (by simp [hc]))

theorem dropWhile_append_ne_nil {p : Char → Bool} {a : List Char} (b : List Char)
    (h : ¬ a.dropWhile p = []) : (a ++ b).dropWhile p = a.dropWhile p ++ b := by
  induction a with
  | nil => simp at h
  | cons c t ih =>
    by_cases hc : p c
    · simp only [List.cons_append, List.dropWhile_cons, hc, if_true] at h ⊢
      exact ih h
    · simp [List.dropWhile_cons, hc]

theorem takeWhile_append_all {p : Char → Bool} {a : List Char} (l : List Char)
    (h : ∀ c ∈ a, p c = true) : (a ++ l).takeWhile p = a ++ l.takeWhile p := by
  induction a with
  | nil => simp
  | cons c t ih =>
    simp only [List.cons_append, List.takeWhile_cons]
    rw [h c (by simp)]
    simp [ih (fun c hc => h c (by simp [hc]))]

theorem trimRightL_append_ws {w : List Char} (l : List Char)
    (h : ∀ c ∈ w, isJsWs c = true) : trimRightL (l ++ w) = trimRightL l := by
  unfold trimRightL
  rw [List.reverse_append,
    dropWhile_append_ws l.reverse (fun c hc => h c (List.mem_reverse.mp hc))]

theorem jsTrimL_ws (w x w' : List Char) (hw : ∀ c ∈ w, isJsWs c = true)
    (hw' : ∀ c ∈ w', isJsWs c = true) :
    trimRightL (trimLeftL (w ++ x ++ w')) = trimRightL (trimLeftL x) := by
  rw [List.append_assoc]
  unfold trimLeftL
  rw [dropWhile_append_ws (x ++ w') hw]
  by_cases hx : x.dropWhile isJsWs = []
  · have hxall : ∀ c ∈ x, isJsWs c = true := List.dropWhile_eq_nil_iff.mp hx
    rw [dropWhile_append_ws w' hxall, List.dropWhile_eq_nil_iff.mpr hw', hx]
  · rw [dropWhile_append_ne_nil w' hx, trimRightL_append_ws _ hw']

theorem jsTrim_ws_append (w x w' : String) (hw : ∀ c ∈ w.data, isJsWs c = true)
    (hw' : ∀ c ∈ w'.data, isJsWs c = true) :
    jsTrim (w ++ x ++ w') = jsTrim x := by
  unfold jsTrim
  have hd : (w ++ x ++ w').data = w.data ++ x.data ++ w'.data := by
    rw [String.data_append, String.data_append]
  rw [hd, jsTrimL_ws w.data x.data w'.data hw hw']

theorem occursIn_of_isPrefix {p l : List Char} (h : p <+: l) : occursIn p l = true := by
  cases l with
  | nil => simp [occursIn, List.prefix_nil.mp h]
  | cons c t => simp [occursIn, h]

theorem occursIn_cons_of {p : List Char} (c : Char) {l : List Char}
    (h : occursIn p l = true) : occursIn p (c :: l) = true := by
  simp [occursIn, h]

theorem occursIn_nil_left (l : List Char) : occursIn [] l = true := by
  cases l <;> simp [occursIn]

theorem occursIn_append_right {q : List Char} (a : List Char) {b : List Char}
    (h : occursIn q b = true) : occursIn q (a ++ b) = true := by
  induction a with
  | nil => simpa using h
  | cons c t ih => exact occursIn_cons_of c ih

theorem occursIn_of_infix {q l : List Char} (h : q <:+: l) : occursIn q l = true := by
  obtain ⟨u, v, huv⟩ := h
  rw [← huv, List.append_assoc]
  exact occursIn_append_right u (occursIn_of_isPrefix (List.prefix_append q v))

theorem occursIn_drop {q : List Char} : ∀ (k : Nat) (l : List Char),
    occursIn q (l.drop k) = true → occursIn q l = true := by
  intro k
  induction k with
  | zero => intro l h; simpa using h
  | succ k ih =>
    intro l h
    cases l with
    | nil => simpa using h
    | cons c t => exact occursIn_cons_of c (ih t h)

theorem occursIn_head_append {pat : List Char} (a b : List Char)
    (hp : ∀ p0, pat.head? = some p0 → p0 ∉ a)
    (h : occursIn pat (a ++ b) = true) : occursIn pat b = true := by
  cases hpc : pat with
  | nil => exact occursIn_nil_left b
  | cons p0 pt =>
    subst hpc
    revert hp h
    induction a with
    | nil => intro _ h; simpa using h
    | cons c t ih =>
      intro hp h
      rw [List.cons_append, occursIn, Bool.or_eq_true, decide_eq_true_eq] at h
      rcases h with h | h
      · exfalso
        have h1 := (List.cons_prefix_cons.mp h).1
        exact hp p0 rfl (by rw [h1]; exact List.mem_cons_self c t)
      · exact ih (fun x hx hmem => hp x hx (List.mem_cons_of_mem c hmem)) h

theorem prefix_through_replaceAll (QS : List Char) {pat rep : List Char}
    (hrep : ¬ rep = [])
    (hr0 : ∀ r0, rep.head? = some r0 → r0 ∉ QS) :
    ∀ (t q : List Char), (∀ ch ∈ q, ch ∈ QS) → q <+: replaceAllL pat rep t →
      q <+: t := by
  intro t
  induction t with
  | nil =>
    intro q hq h
    simpa [replaceAllL] using h
  | cons c t ih =>
    intro q hq h
    rw [replaceAllL] at h
    by_cases hc : pat ≠ [] ∧ pat <+: (c :: t)
    · rw [if_pos hc] at h
      cases q with
      | nil => exact List.nil_prefix
      | cons q0 qt =>
        exfalso
        cases rep with
        | nil => exact hrep rfl
        | cons r0 rt =>
          rw [List.cons_append] at h
          exact hr0 r0 rfl ((List.cons_prefix_cons.mp h).1 ▸ hq q0 (by simp))
    · rw [if_neg hc] at h
      cases q with
      | nil => exact List.nil_prefix
      | cons q0 qt =>
        have h1 := List.cons_prefix_cons.mp h
        exact List.cons_prefix_cons.mpr
          ⟨h1.1, ih qt (fun ch hch => hq ch (by simp [hch])) h1.2⟩

theorem occursIn_replaceAll_rep (pat rep : List Char) (hne : ¬ pat = []) :
    ∀ s, occursIn pat s = true → occursIn rep (replaceAllL pat rep s) = true := by
  have main : ∀ n s, s.length ≤ n → occursIn pat s = true →
      occursIn rep (replaceAllL pat rep s) = true := by
    intro n
    induction n with
    | zero =>
      intro s hs hocc
      have : s = [] := List.length_eq_zero.mp (Nat.le_zero.mp hs)
      subst this
      simp [occursIn, hne] at hocc
    | succ n ih =>
      intro s hs hocc
      cases s with
      | nil => simp [occursIn, hne] at hocc
      | cons c rest =>
        rw [replaceAllL]
        by_cases hc : pat ≠ [] ∧ pat <+: (c :: rest)
        · rw [if_pos hc]
          exact occursIn_of_isPrefix (List.prefix_append rep _)
        · rw [if_neg hc]
          have hnp : ¬ pat <+: (c :: rest) := fun hp => hc ⟨hne, hp⟩
          rw [occursIn, Bool.or_eq_true, decide_eq_true_eq] at hocc
          rcases hocc with hocc | hocc
          · exact absurd hocc hnp
          · refine occursIn_cons_of c (ih rest ?_ hocc)
            simp only [List.length_cons] at hs
            omega
  intro s
  exact main s.length s (Nat.le_refl _)

theorem occursIn_replaceAll_pat (pat rep : List Char) (hne : ¬ pat = [])
    (hrep : ¬ rep = [])
    (hp : ∀ p0, pat.head? = some p0 → p0 ∉ rep)
    (hr0 : ∀ r0, rep.head? = some r0 → r0 ∉ pat) :
    ∀ s, occursIn pat (replaceAllL pat rep s) = false := by
  have main : ∀ n s, s.length ≤ n →
      occursIn pat (replaceAllL pat rep s) = false := by
    intro n
    induction n with
    | zero =>
      intro s hs
      have hs0 : s = [] := List.length_eq_zero.mp (Nat.le_zero.mp hs)
      subst hs0
      simp [replaceAllL, occursIn, hne]
    | succ n ih =>
      intro s hs
      cases s with
      | nil => simp [replaceAllL, occursIn, hne]
      | cons c rest =>
        rw [replaceAllL]
        by_cases hc : pat ≠ [] ∧ pat <+: (c :: rest)
        · rw [if_pos hc]
          have hplen : 0 < pat.length := List.length_pos.mpr hne
          have hx : occursIn pat
              (replaceAllL pat rep ((c :: rest).drop pat.length)) = false := by
            apply ih
            have := List.length_drop pat.length (c :: rest)
            simp only [List.length_cons] at this hs ⊢
            omega
          rw [Bool.eq_false_iff]
          intro htr
          rw [occursIn_head_append rep _ hp htr] at hx
          exact Bool.false_ne_true hx.symm
        · rw [if_neg hc]
          have hnp : ¬ pat <+: (c :: rest) := fun hp2 => hc ⟨hne, hp2⟩
          have hrest : occursIn pat (replaceAllL pat rep rest) = false := by
            apply ih
            simp only [List.length_cons] at hs
            omega
          have hR : ¬ pat <+: (c :: replaceAllL pat rep rest) := by
            intro hp2
            cases hpc : pat with
            | nil => exact hne hpc
            | cons p0 pt =>
              rw [hpc] at hp2
              have h1 := List.cons_prefix_cons.mp hp2
              have h2 : pt <+: rest := by
                refine prefix_through_replaceAll pat hrep hr0 rest pt ?_ h1.2
                intro ch hch
                rw [hpc]
                exact List.mem_cons_of_mem p0 hch
              exact hnp (by rw [hpc]; exact List.cons_prefix_cons.mpr ⟨h1.1, h2⟩)
          simp [occursIn, hR, hrest]
  intro s
  exact main s.length s (Nat.le_refl _)

theorem occursIn_skip_block {q pat : List Char} {lp : Char}
    (hpl : pat.getLast? = some lp) (hlpq : lp ∉ q)
    (hni : occursIn q pat = false) :
    ∀ (pp t : List Char), (∃ u, u ++ pp = pat) → occursIn q (pp ++ t) = true →
      occursIn q t = true := by
  intro pp
  induction pp with
  | nil => intro t _ h; simpa using h
  | cons x pp' ih =>
    intro t hsuf h
    obtain ⟨u, hu⟩ := hsuf
    rw [List.cons_append, occursIn, Bool.or_eq_true, decide_eq_true_eq] at h
    rcases h with h | h
    · by_cases hq : q = []
      · subst hq
        exact occursIn_nil_left t
      · exfalso
        have hpp : (x :: pp') <+: x :: (pp' ++ t) :=
          List.cons_prefix_cons.mpr ⟨rfl, List.prefix_append pp' t⟩
        by_cases hlen : q.length ≤ (x :: pp').length
        · have hqpp : q <+: (x :: pp') := List.prefix_of_prefix_length_le h hpp hlen
          obtain ⟨v, hv⟩ := hqpp
          have hinf : occursIn q pat = true := by
            refine occursIn_of_infix ⟨u, v, ?_⟩
            rw [List.append_assoc, hv, hu]
          rw [hni] at hinf
          exact Bool.false_ne_true hinf
        · have hppq : (x :: pp') <+: q :=
            List.prefix_of_prefix_length_le hpp h (by omega)
          have hnn : (x :: pp') ≠ [] := by simp
          have hlast2 : pat.getLast? = some ((x :: pp').getLast hnn) := by
            rw [← hu, List.getLast?_append_of_ne_nil _ hnn]
            exact List.getLast?_eq_getLast _ hnn
          rw [hpl] at hlast2
          have hmem : lp ∈ (x :: pp') := by
            rw [Option.some.inj hlast2]
            exact List.getLast_mem hnn
          exact hlpq (hppq.subset hmem)
    · refine ih t ⟨u ++ [x], ?_⟩ h
      rw [List.append_assoc]
      simpa using hu

theorem isPrefix_replaceAll_keep {q pat rep : List Char} {hp0 lp : Char}
    (hph : pat.head? = some hp0) (hp0q : hp0 ∉ q)
    (hpl : pat.getLast? = some lp) (hlpq : lp ∉ q) :
    ∀ (t q0 : List Char), (∃ w, w ++ q0 = q) → q0 <+: t →
      q0 <+: replaceAllL pat rep t := by
  intro t
  induction t with
  | nil =>
    intro q0 _ h
    rw [show replaceAllL pat rep [] = [] from by simp [replaceAllL]]
    exact h
  | cons c t ih =>
    intro q0 hsub h0
    obtain ⟨w, hw⟩ := hsub
    rw [replaceAllL]
    by_cases hc : pat ≠ [] ∧ pat <+: (c :: t)
    · rw [if_pos hc]
      cases hq0 : q0 with
      | nil => exact List.nil_prefix
      | cons y q0' =>
        exfalso
        rw [hq0] at h0 hw
        by_cases hlen : (y :: q0').length ≤ pat.length
        · have hq0p : (y :: q0') <+: pat :=
            List.prefix_of_prefix_length_le h0 hc.2 hlen
          obtain ⟨p0, pt, hpat⟩ : ∃ a b, pat = a :: b := by
            cases hpc : pat with
            | nil => exact absurd hpc hc.1
            | cons a b => exact ⟨a, b, rfl⟩
          rw [hpat] at hq0p hph
          have hyp0 : y = p0 := (List.cons_prefix_cons.mp hq0p).1
          have hp0e : p0 = hp0 := Option.some.inj hph
          apply hp0q
          rw [← hp0e, ← hyp0, ← hw]
          exact List.mem_append_right w (List.mem_cons_self y q0')
        · have hpq0 : pat <+: (y :: q0') :=
            List.prefix_of_prefix_length_le hc.2 h0 (by omega)
          have hlp_mem : lp ∈ pat := by
            have hgl := List.getLast?_eq_getLast pat hc.1
            rw [hpl] at hgl
            rw [Option.some.inj hgl]
            exact List.getLast_mem hc.1
          apply hlpq
          rw [← hw]
          exact List.mem_append_right w (hpq0.subset hlp_mem)
    · rw [if_neg hc]
      cases hq0 : q0 with
      | nil => exact List.nil_prefix
      | cons y q0' =>
        rw [hq0] at h0
        have h1 := List.cons_prefix_cons.mp h0
        refine List.cons_prefix_cons.mpr ⟨h1.1, ?_⟩
        refine ih q0' ⟨w ++ [y], ?_⟩ h1.2
        rw [List.append_assoc]
        simp only [List.singleton_append]
        rw [← hq0]
        exact hw

theorem occursIn_replaceAll_keep {q pat rep : List Char} {hp0 lp : Char}
    (hph : pat.head? = some hp0) (hp0q : hp0 ∉ q)
    (hpl : pat.getLast? = some lp) (hlpq : lp ∉ q)
    (hni : occursIn q pat = false) :
    ∀ s, occursIn q s = true → occursIn q (replaceAllL pat rep s) = true := by
  have main : ∀ n s, s.length ≤ n → occursIn q s = true →
      occursIn q (replaceAllL pat rep s) = true := by
    intro n
    induction n with
    | zero =>
      intro s hs h
      have hs0 : s = [] := List.length_eq_zero.mp (Nat.le_zero.mp hs)
      subst hs0
      simpa [replaceAllL] using h
    | succ n ih =>
      intro s hs h
      cases s with
      | nil => simpa [replaceAllL] using h
      | cons c rest =>
        rw [occursIn, Bool.or_eq_true, decide_eq_true_eq] at h
        rcases h with h | h
        · exact occursIn_of_isPrefix
            (isPrefix_replaceAll_keep hph hp0q hpl hlpq (c :: rest) q ⟨[], by simp⟩ h)
        · rw [replaceAllL]
          by_cases hc : pat ≠ [] ∧ pat <+: (c :: rest)
          · rw [if_pos hc]
            obtain ⟨p0, pt, hpat⟩ : ∃ a b, pat = a :: b := by
              cases hpc : pat with
              | nil => exact absurd hpc hc.1
              | cons a b => exact ⟨a, b, rfl⟩
            obtain ⟨tl, htl⟩ := hc.2
            have hrest : rest = pt ++ tl := by
              have h2 := htl
              rw [hpat, List.cons_append] at h2
              exact ((List.cons.inj h2).2).symm
            have htl_occ : occursIn q tl = true := by
              refine occursIn_skip_block hpl hlpq hni pt tl
                ⟨[p0], by rw [hpat]; exact List.singleton_append⟩ ?_
              rw [← hrest]
              exact h
            have hlen : tl.length ≤ n := by
              have hlen2 := congrArg List.length htl
              rw [List.length_append] at hlen2
              have hplen : 0 < pat.length := List.length_pos.mpr hc.1
              simp only [List.length_cons] at hlen2 hs
              omega
            have hdrop : (c :: rest).drop pat.length = tl := by
              rw [← htl]
              exact List.drop_left _ _
            rw [hdrop]
            exact occursIn_append_right rep (ih tl hlen htl_occ)
          · rw [if_neg hc]
            exact occursIn_cons_of c
              (ih rest (by simp only [List.length_cons] at hs; omega) h)
  exact fun s => main s.length s (Nat.le_refl _)

theorem occursIn_of_replaceAll {pat par rep : List Char}
    (hrep : ¬ rep = [])
    (hp : ∀ p0, pat.head? = some p0 → p0 ∉ rep)
    (hr0 : ∀ r0, rep.head? = some r0 → r0 ∉ pat) :
    ∀ s, occursIn pat (replaceAllL par rep s) = true → occursIn pat s = true := by
  have main : ∀ n s, s.length ≤ n → occursIn pat (replaceAllL par rep s) = true →
      occursIn pat s = true := by
    intro n
    induction n with
    | zero =>
      intro s hs h
      have hs0 : s = [] := List.length_eq_zero.mp (Nat.le_zero.mp hs)
      subst hs0
      simpa [replaceAllL] using h
    | succ n ih =>
      intro s hs h
      cases s with
      | nil => simpa [replaceAllL] using h
      | cons c rest =>
        rw [replaceAllL] at h
        by_cases hc : par ≠ [] ∧ par <+: (c :: rest)
        · rw [if_pos hc] at h
          have h2 := occursIn_head_append rep _ hp h
          have hlen : ((c :: rest).drop par.length).length ≤ n := by
            have hpl2 : 0 < par.length := List.length_pos.mpr hc.1
            have := List.length_drop par.length (c :: rest)
            simp only [List.length_cons] at this hs ⊢
            omega
          exact occursIn_drop par.length (c :: rest) (ih _ hlen h2)
        · rw [if_neg hc] at h
          rw [occursIn, Bool.or_eq_true, decide_eq_true_eq] at h
          rcases h with h | h
          · cases hpc : pat with
            | nil => exact occursIn_nil_left _
            | cons p0 pt =>
              rw [hpc] at h
              have h1 := List.cons_prefix_cons.mp h
              have h2 : pt <+: rest := by
                refine prefix_through_replaceAll (p0 :: pt) hrep ?_ rest pt ?_ h1.2
                · intro r0 hr0h
                  exact hpc ▸ hr0 r0 hr0h
                · intro ch hch
                  exact List.mem_cons_of_mem p0 hch
              exact occursIn_of_isPrefix (List.cons_prefix_cons.mpr ⟨h1.1, h2⟩)
          · exact occursIn_cons_of c
              (ih rest (by simp only [List.length_cons] at hs; omega) h)
  exact fun s => main s.length s (Nat.le_refl _)

theorem foldl_fix {α β : Type} (f : β → α → β) (l : List α) (init : β)
    (h : ∀ acc e, e ∈ l → f acc e = acc) : l.foldl f init = init := by
  induction l generalizing init with
  | nil => rfl
  | cons a t ih =>
    rw [List.foldl_cons, h init a (by simp)]
    exact ih init (fun acc e he => h acc e (by simp [he]))

theorem string_data_ne_nil {s : String} (h : ¬ s = "") : ¬ s.data = [] :=
  fun hd => h (String.ext (by rw [hd]))

/-! ## Claim theorems -/

/-- Claim C2: for every input string, however malformed, the render
entrypoints never throw: both return a plain `String`, and the result is
always either the no-content placeholder (respectively the empty string),
the collaborator's successful output, or an in-page error fragment
embedding the caught error message. -/
theorem c2_render_total :
    (∀ (parse : (String → Option String → String) → String → Except String String)
        (hl : Bool) (pf : String → Bool) (ph : String → String → Except String String)
        (rand md : String),
      render_mr parse hl pf ph rand md = "<p><em>No content to render</em></p>" ∨
      (∃ h, parse (customRenderer_code hl pf ph rand)
          (preProcessMarkdown (jsTrim md)) = .ok h ∧
        render_mr parse hl pf ph rand md = h) ∨
      (∃ e, parse (customRenderer_code hl pf ph rand)
          (preProcessMarkdown (jsTrim md)) = .error e ∧
        render_mr parse hl pf ph rand md =
          "<p>Error rendering markdown: " ++ e ++ "</p>")) ∧
    (∀ (Tok : Type) (lexer : String → Except String (List Tok)) enhance detLangs
        detMermaid detMath parser (pf : String → Bool)
        (ph : String → String → Except String String)
        (kx : String → Bool → Except String String) (md : String),
      render_mtr lexer enhance detLangs detMermaid detMath parser pf ph kx md = "" ∨
      (∃ h, (parseMarkdown lexer enhance detLangs detMermaid detMath
            (preProcessMarkdown_mtr md)).bind
            (fun ast => renderToHtml parser pf ph kx (some ast)) = .ok h ∧
        render_mtr lexer enhance detLangs detMermaid detMath parser pf ph kx md = h) ∨
      (∃ e, (parseMarkdown lexer enhance detLangs detMermaid detMath
            (preProcessMarkdown_mtr md)).bind
            (fun ast => renderToHtml parser pf ph kx (some ast)) = .error e ∧
        render_mtr lexer enhance detLangs detMermaid detMath parser pf ph kx md =
          "<div class=\"error\">Error rendering markdown: " ++ e ++ "</div>")) := by
  constructor
  · intro parse hl pf ph rand md
    by_cases h0 : jsTrim md = ""
    · left
      simp [render_mr, h0]
    · cases hp : parse (customRenderer_code hl pf ph rand)
          (preProcessMarkdown (jsTrim md)) with
      | ok h => exact Or.inr (Or.inl ⟨h, rfl, by simp [render_mr, h0, hp]⟩)
      | error e => exact Or.inr (Or.inr ⟨e, rfl, by simp [render_mr, h0, hp]⟩)
  · intro Tok lexer enhance detLangs detMermaid detMath parser pf ph kx md
    by_cases h0 : md = ""
    · left
      simp [render_mtr, h0]
    · cases hp : (parseMarkdown lexer enhance detLangs detMermaid detMath
          (preProcessMarkdown_mtr md)).bind
          (fun ast => renderToHtml parser pf ph kx (some ast)) with
      | ok h => exact Or.inr (Or.inl ⟨h, rfl, by simp [render_mtr, h0, hp]⟩)
      | error e => exact Or.inr (Or.inr ⟨e, rfl, by simp [render_mtr, h0, hp]⟩)

/-- Claim C3 (counterexample): in `markdowntorender.js`, a whitespace-only
input is not short-circuited to a no-content placeholder — it is handed to
the parsing pipeline, whose output it returns — and the empty input returns
the empty string.  So `render` does not return a fixed placeholder fragment
signaling "no content" on empty/whitespace-only input. -/
theorem c3_counterexample :
    @render_mtr Unit (fun _ => .ok []) id (fun _ => []) (fun _ => [])
      (fun _ => []) (fun _ _ => .ok "<p>hi</p>") (fun _ => false)
      (fun _ _ => .error "") (fun _ _ => .error "") " " = "<p>hi</p>" ∧
    @render_mtr Unit (fun _ => .ok []) id (fun _ => []) (fun _ => [])
      (fun _ => []) (fun _ _ => .ok "<p>hi</p>") (fun _ => false)
      (fun _ _ => .error "") (fun _ _ => .error "") "" = "" ∧
    ¬ ("<p>hi</p>" : String) = "" ∧
    ¬ ("<p>hi</p>" : String) = "<p><em>No content to render</em></p>" := by
  refine ⟨rfl, rfl, by decide, by decide⟩

/-- Claim C3 (amended): in `markdownrenderer.js`, every empty or
whitespace-only input yields the fixed placeholder
`<p><em>No content to render</em></p>`; in `markdowntorender.js`, the empty
input yields the empty string (and whitespace-only input is delegated to
the parser, see the counterexample). -/
theorem c3_amended :
    (∀ parse (hl : Bool) (pf : String → Bool)
        (ph : String → String → Except String String) (rand md : String),
      jsTrim md = "" →
      render_mr parse hl pf ph rand md = "<p><em>No content to render</em></p>") ∧
    (∀ (Tok : Type) (lexer : String → Except String (List Tok)) enhance detLangs
        detMermaid detMath parser (pf : String → Bool)
        (ph : String → String → Except String String)
        (kx : String → Bool → Except String String),
      render_mtr lexer enhance detLangs detMermaid detMath parser pf ph kx "" = "") := by
  constructor
  · intro parse hl pf ph rand md h0
    simp [render_mr, h0]
  · intro Tok lexer enhance detLangs detMermaid detMath parser pf ph kx
    rfl

/-- Witness for C3: the amended statement applied at the whitespace-only
input `"   "` and at the empty input. -/
theorem c3_witness :
    render_mr parseFenceModel true (fun _ => false) (fun _ _ => .error "") "r" "   " =
      "<p><em>No content to render</em></p>" ∧
    @render_mtr Unit (fun _ => .ok []) id (fun _ => []) (fun _ => [])
      (fun _ => []) (fun _ _ => .ok "") (fun _ => false)
      (fun _ _ => .error "") (fun _ _ => .error "") "" = "" :=
  ⟨c3_amended.1 parseFenceModel true (fun _ => false) (fun _ _ => .error "") "r" "   "
      (by decide),
    c3_amended.2 Unit (fun _ => .ok []) id (fun _ => []) (fun _ => [])
      (fun _ => []) (fun _ _ => .ok "") (fun _ => false)
      (fun _ _ => .error "") (fun _ _ => .error "")⟩

/-- Claim C9: `renderToHtml` rejects a null/undefined AST, and an AST whose
`children` field is missing, with the immediate error
`Invalid AST structure` instead of returning HTML. -/
theorem c9_invalid_ast {Tok : Type}
    (parser : (String → Option String → Except String String) → List Tok →
      Except String String)
    (pf : String → Bool) (ph : String → String → Except String String)
    (kx : String → Bool → Except String String) (ast : Option (Ast Tok))
    (h : ast = none ∨ ∃ a, ast = some a ∧ a.children = none) :
    renderToHtml parser pf ph kx ast = .error "Invalid AST structure" := by
  rcases h with h | ⟨a, ha, hc⟩
  · subst h
    rfl
  · subst ha
    simp [renderToHtml, hc]

/-- Witness for C9: the null AST is rejected. -/
theorem c9_witness :
    @renderToHtml Unit (fun _ _ => .ok "") (fun _ => false)
      (fun _ _ => .error "e") (fun _ _ => .error "e") none =
      .error "Invalid AST structure" :=
  c9_invalid_ast _ _ _ _ none (Or.inl rfl)

/-- Claim C10: in `markdownrenderer.js`, surrounding an input with
whitespace-only strings does not change the rendered output, because the
input is trimmed before pre-processing. -/
theorem c10_trim_invariance
    (parse : (String → Option String → String) → String → Except String String)
    (hl : Bool) (pf : String → Bool) (ph : String → String → Except String String)
    (rand x w w' : String)
    (hw : ∀ c ∈ w.data, isJsWs c = true) (hw' : ∀ c ∈ w'.data, isJsWs c = true) :
    render_mr parse hl pf ph rand (w ++ x ++ w') = render_mr parse hl pf ph rand x := by
  unfold render_mr
  rw [jsTrim_ws_append w x w' hw hw']

/-- Witness for C10: wrapping `# Hi` in spaces and a newline renders the
same output. -/
theorem c10_witness :
    render_mr parseFenceModel true (fun _ => false) (fun _ _ => .error "") "r"
      ("  " ++ "# Hi" ++ "\n") =
    render_mr parseFenceModel true (fun _ => false) (fun _ _ => .error "") "r" "# Hi" :=
  c10_trim_invariance parseFenceModel true (fun _ => false) (fun _ _ => .error "")
    "r" "# Hi" "  " "\n" (by decide) (by decide)

/-- Claim C6: on `"- [x] Done\n- [ ] Todo"` the pre-processor is the
identity and the `taskLists` tokenizer produces exactly two task items, the
first checked and the second unchecked, each rendered as a checkbox input
whose `checked` attribute matches; the checkbox letter is matched
case-insensitively (`[X]` is also checked). -/
theorem c6_task_list :
    preProcessMarkdown "- [x] Done\n- [ ] Todo" = "- [x] Done\n- [ ] Todo" ∧
    taskTokenize "- [x] Done\n- [ ] Todo" = some ("- [x] Done\n", true, "Done") ∧
    taskTokenize "- [ ] Todo" = some ("- [ ] Todo", false, "Todo") ∧
    ("- [x] Done\n" ++ "- [ ] Todo" : String) = "- [x] Done\n- [ ] Todo" ∧
    taskItemHtml true "Done" =
      "<li class=\"task-list-item\"><input type=\"checkbox\" checked disabled> Done</li>" ∧
    taskItemHtml false "Todo" =
      "<li class=\"task-list-item\"><input type=\"checkbox\"  disabled> Todo</li>" ∧
    taskTokenize "- [X] Done" = some ("- [X] Done", true, "Done") := by
  decide

/-- Auxiliary: a successful `mathInlineMatchL` never returns empty content
(the `[^$]+` class requires at least one character). -/
theorem mathInlineMatchL_content_ne_nil {l : List Char} {p : List Char × List Char}
    (h : mathInlineMatchL l = some p) : ¬ p.1 = [] := by
  unfold mathInlineMatchL at h
  repeat' split at h
  all_goals try exact Option.noConfusion h
  rename_i hempty
  cases Option.some.inj h
  intro hnil
  simp only at hnil
  rw [hnil] at hempty
  simp at hempty

/-- Claim C7: the inline-math rule matches a `$...$` span containing no
embedded `$` (returning the span's content and raw text), declines whenever
the remaining input starts with `$$`, and never returns empty content
between the delimiters. -/
theorem c7_math_inline_rule :
    (∀ (c rest : String), ¬ c = "" → (∀ ch ∈ c.data, ¬ ch = '$') →
      mathInlineMatch ("$" ++ c ++ "$" ++ rest) = some (c, "$" ++ c ++ "$")) ∧
    (∀ rest : String, mathInlineMatch ("$$" ++ rest) = none) ∧
    (∀ s c raw : String, mathInlineMatch s = some (c, raw) → ¬ c = "") := by
  refine ⟨?_, ?_, ?_⟩
  · intro c rest hne hnd
    have hd : ("$" ++ c ++ "$" ++ rest).data = '$' :: (c.data ++ '$' :: rest.data) := by
      simp [String.data_append]
    obtain ⟨c0, ct, hcd⟩ : ∃ a b, c.data = a :: b := by
      cases hcc : c.data with
      | nil => exact absurd hcc (string_data_ne_nil hne)
      | cons a b => exact ⟨a, b, rfl⟩
    have hc0 : ¬ c0 = '$' := hnd c0 (by rw [hcd]; exact List.mem_cons_self c0 ct)
    have hall : ∀ ch ∈ c0 :: ct, (fun ch => decide (¬ ch = '$')) ch = true := by
      intro ch hch
      simp only [decide_eq_true_eq]
      exact hnd ch (by rw [hcd]; exact hch)
    have htw : ((c0 :: ct) ++ '$' :: rest.data).takeWhile (fun ch => ¬ ch = '$') =
        c0 :: ct := by
      rw [takeWhile_append_all _ hall]
      simp [List.takeWhile_cons]
    have hdrop : ((c0 :: ct) ++ '$' :: rest.data).drop (c0 :: ct).length =
        '$' :: rest.data := List.drop_left _ _
    unfold mathInlineMatch
    rw [hd, hcd, List.cons_append]
    unfold mathInlineMatchL
    simp only [if_pos rfl, List.cons_append]
    rw [if_neg hc0]
    simp only [← List.cons_append, htw]
    rw [if_pos trivial, hdrop]
    have hs1 : (⟨c0 :: ct⟩ : String) = c := by rw [← hcd]
    have hs2 : (⟨'$' :: c0 :: (ct ++ ['$'])⟩ : String) = "$" ++ c ++ "$" := by
      apply String.ext
      simp [String.data_append, hcd]
    simp [hs1, hs2]
  · intro rest
    have hd : ("$$" ++ rest).data = '$' :: '$' :: rest.data := by
      simp [String.data_append]
    unfold mathInlineMatch
    rw [hd]
    unfold mathInlineMatchL
    simp
  · intro s c raw h
    unfold mathInlineMatch at h
    cases hm : mathInlineMatchL s.data with
    | none => rw [hm] at h; simp at h
    | some p =>
      rw [hm] at h
      simp only [Option.map_some'] at h
      have hp1 : ¬ p.1 = [] := mathInlineMatchL_content_ne_nil hm
      have h2 := Option.some.inj h
      have hc1 : (⟨p.1⟩ : String) = c := congrArg Prod.fst h2
      intro hc
      apply hp1
      rw [hc] at hc1
      exact congrArg String.data hc1

/-- Witness for C7: the rule matches `$E$x`, declines on `$$x$$`, and the
match on `$E$x` has nonempty content. -/
theorem c7_witness :
    mathInlineMatch ("$" ++ "E" ++ "$" ++ "x") = some ("E", "$" ++ "E" ++ "$") ∧
    mathInlineMatch ("$$" ++ "x$$") = none ∧
    ¬ ("E" : String) = "" :=
  ⟨c7_math_inline_rule.1 "E" "x" (by decide) (by decide),
    c7_math_inline_rule.2.1 "x$$",
    c7_math_inline_rule.2.2 ("$" ++ "E" ++ "$" ++ "x") "E" ("$" ++ "E" ++ "$")
      (c7_math_inline_rule.1 "E" "x" (by decide) (by decide))⟩

/-- Claim C1 (counterexample): rendering the same mermaid input twice with
identical collaborator behavior but two different draws of the
`Math.random()`-derived id (as happens on two successive calls) yields
different bytes — the mermaid container id differs. -/
theorem c1_counterexample :
    ¬ render_mr parseFenceModel true (fun _ => false) (fun _ _ => .error "")
        "aaaaaaaaa" "```mermaid\nA-->B\n```" =
      render_mr parseFenceModel true (fun _ => false) (fun _ _ => .error "")
        "bbbbbbbbb" "```mermaid\nA-->B\n```" := by
  decide

/-- Claim C1 (amended): given identical collaborator behavior and an
identical value from the random id source, `render` is deterministic; and
the random value influences the output only through the mermaid branch of
the code renderer — every non-mermaid code block renders identically under
different random draws. -/
theorem c1_amended :
    (∀ (parse : (String → Option String → String) → String → Except String String)
        (hl : Bool) (pf : String → Bool) (ph : String → String → Except String String)
        (rand1 rand2 md : String), rand1 = rand2 →
      render_mr parse hl pf ph rand1 md = render_mr parse hl pf ph rand2 md) ∧
    (∀ (hl : Bool) (pf : String → Bool) (ph : String → String → Except String String)
        (rand1 rand2 code : String) (language : Option String),
      ¬ asciiLower (language.getD "") = "mermaid" →
      customRenderer_code hl pf ph rand1 code language =
        customRenderer_code hl pf ph rand2 code language) := by
  constructor
  · intro parse hl pf ph rand1 rand2 md h
    rw [h]
  · intro hl pf ph rand1 rand2 code language h
    unfold customRenderer_code
    rw [if_neg h, if_neg h]

/-- Witness for C1: determinism at an equal random draw, and random-draw
irrelevance for a non-mermaid language. -/
theorem c1_witness :
    render_mr parseFenceModel true (fun _ => false) (fun _ _ => .error "") "r" "# Hi" =
      render_mr parseFenceModel true (fun _ => false) (fun _ _ => .error "") "r" "# Hi" ∧
    customRenderer_code true (fun _ => false) (fun _ _ => .error "") "aaa" "x" (some "js") =
      customRenderer_code true (fun _ => false) (fun _ _ => .error "") "bbb" "x" (some "js") :=
  ⟨c1_amended.1 parseFenceModel true (fun _ => false) (fun _ _ => .error "")
      "r" "r" "# Hi" rfl,
    c1_amended.2 true (fun _ => false) (fun _ _ => .error "") "aaa" "bbb" "x"
      (some "js") (by decide)⟩

/-- Claim C4 (counterexample): in `markdowntorender.js`, a code block with
an unrecognized language is emitted with its raw, unescaped text — on the
input `a<b` the emitted content differs from the HTML-escaped code text, so
the output is not the HTML-escaped raw code. -/
theorem c4_counterexample :
    renderer_code (fun _ => false) (fun _ _ => .error "") (fun _ _ => .error "")
      "a<b" (some "unknownlang") =
      .ok "<pre><code class=\"language-unknownlang\">a<b</code></pre>" ∧
    ¬ ("<pre><code class=\"language-unknownlang\">a<b</code></pre>" : String) =
      "<pre><code class=\"language-unknownlang\">" ++ escapeHtml "a<b" ++
        "</code></pre>" := by
  refine ⟨by decide, by decide⟩

/-- Claim C4 (amended): for every code block whose language tag is not
recognized by the highlighter (and is not a diagram or math fence), neither
renderer throws and neither drops content: `markdownrenderer.js` emits a
`pre`/`code` element with the HTML-escaped code and a language class, while
`markdowntorender.js` emits the same element with the raw, unescaped code
text (equal to the escaped form only when the code has no HTML special
characters). -/
theorem c4_amended :
    (∀ (hl : Bool) (pf : String → Bool) (ph : String → String → Except String String)
        (rand code lang : String),
      ¬ lang = "" → ¬ asciiLower lang = "mermaid" → pf (asciiLower lang) = false →
      customRenderer_code hl pf ph rand code (some lang) =
        "<pre><code" ++ langClassOf (some lang) ++ ">" ++ escapeHtml code ++
          "</code></pre>\n" ∧
      langClassOf (some lang) = " class=\"language-" ++ lang ++ "\"") ∧
    (∀ (pf : String → Bool) (ph : String → String → Except String String)
        (kx : String → Bool → Except String String) (code lang : String),
      ¬ lang = "" → ¬ lang = "mermaid" → ¬ lang = "math" → ¬ lang = "katex" →
      ¬ lang = "tex" → pf lang = false →
      renderer_code pf ph kx code (some lang) =
        .ok ("<pre><code" ++ langClassOf (some lang) ++ ">" ++ code ++
          "</code></pre>") ∧
      langClassOf (some lang) = " class=\"language-" ++ lang ++ "\"") := by
  constructor
  · intro hl pf ph rand code lang h1 h2 h3
    constructor
    · unfold customRenderer_code
      simp only [Option.getD_some]
      rw [if_neg h2, if_neg (fun hcon => Bool.false_ne_true (h3 ▸ hcon.2.2.2.2))]
    · simp [langClassOf, h1]
  · intro pf ph kx code lang h1 h2 h3 h4 h5 h6
    constructor
    · unfold renderer_code
      rw [if_neg (fun hh => h2 (Option.some.inj hh))]
      rw [if_neg (fun hh => by
        rcases hh with hh | hh | hh
        · exact h3 (Option.some.inj hh)
        · exact h4 (Option.some.inj hh)
        · exact h5 (Option.some.inj hh))]
      simp only [Option.getD_some]
      rw [if_neg (fun hcon => Bool.false_ne_true (h6 ▸ hcon.2))]
    · simp [langClassOf, h1]

/-- Witness for C4: both fallbacks on the language `unknownlang` with code
`hello`. -/
theorem c4_witness :
    (customRenderer_code true (fun _ => false) (fun _ _ => .error "") "r" "hello"
        (some "unknownlang") =
      "<pre><code" ++ langClassOf (some "unknownlang") ++ ">" ++ escapeHtml "hello" ++
        "</code></pre>\n" ∧
      langClassOf (some "unknownlang") = " class=\"language-" ++ "unknownlang" ++ "\"") ∧
    (renderer_code (fun _ => false) (fun _ _ => .error "") (fun _ _ => .error "")
        "hello" (some "unknownlang") =
      .ok ("<pre><code" ++ langClassOf (some "unknownlang") ++ ">" ++ "hello" ++
        "</code></pre>") ∧
      langClassOf (some "unknownlang") = " class=\"language-" ++ "unknownlang" ++ "\"") :=
  ⟨c4_amended.1 true (fun _ => false) (fun _ _ => .error "") "r" "hello" "unknownlang"
      (by decide) (by decide) rfl,
    c4_amended.2 (fun _ => false) (fun _ _ => .error "") (fun _ _ => .error "")
      "hello" "unknownlang" (by decide) (by decide) (by decide) (by decide)
      (by decide) rfl⟩

/-- Claim C5 (counterexample): in `markdowntorender.js`, a mermaid code
block is emitted as a `div` that carries no id attribute at all and whose
content is the raw, unescaped diagram source: on `A-->B` the output
contains neither the HTML-escaped source nor any ` id=` attribute. -/
theorem c5_counterexample :
    renderer_code (fun _ => false) (fun _ _ => .error "") (fun _ _ => .error "")
      "A-->B" (some "mermaid") = .ok "<div class=\"mermaid\">A-->B</div>" ∧
    occursIn (escapeHtml "A-->B").data "<div class=\"mermaid\">A-->B</div>".data =
      false ∧
    occursIn " id=".data "<div class=\"mermaid\">A-->B</div>".data = false ∧
    ¬ ("A-->B" : String) = escapeHtml "A-->B" := by
  refine ⟨by decide, by decide, by decide, by decide⟩

/-- Claim C5 (amended): for a code block whose language tag is the diagram
language, neither renderer expands the diagram: `markdownrenderer.js` emits
a container `div` with a random-suffix id whose text content is the
HTML-escaped raw source, while `markdowntorender.js` emits a `div` with no
id and the raw, unescaped source. -/
theorem c5_amended :
    (∀ (hl : Bool) (pf : String → Bool) (ph : String → String → Except String String)
        (rand code : String) (language : Option String),
      asciiLower (language.getD "") = "mermaid" →
      customRenderer_code hl pf ph rand code language =
        "<div class=\"mermaid\" id=\"mermaid-diagram-" ++ rand ++ "\">" ++
          escapeHtml code ++ "</div>") ∧
    (∀ (pf : String → Bool) (ph : String → String → Except String String)
        (kx : String → Bool → Except String String) (code : String),
      renderer_code pf ph kx code (some "mermaid") =
        .ok ("<div class=\"mermaid\">" ++ code ++ "</div>")) := by
  constructor
  · intro hl pf ph rand code language h
    unfold customRenderer_code
    rw [if_pos h]
  · intro pf ph kx code
    unfold renderer_code
    rw [if_pos rfl]

/-- Witness for C5: both mermaid emissions on the source `graph TD`. -/
theorem c5_witness :
    customRenderer_code true (fun _ => false) (fun _ _ => .error "") "r" "graph TD"
      (some "mermaid") =
      "<div class=\"mermaid\" id=\"mermaid-diagram-" ++ "r" ++ "\">" ++
        escapeHtml "graph TD" ++ "</div>" ∧
    renderer_code (fun _ => false) (fun _ _ => .error "") (fun _ _ => .error "")
      "graph TD" (some "mermaid") =
      .ok ("<div class=\"mermaid\">" ++ "graph TD" ++ "</div>") :=
  ⟨c5_amended.1 true (fun _ => false) (fun _ _ => .error "") "r" "graph TD"
      (some "mermaid") (by decide),
    c5_amended.2 (fun _ => false) (fun _ _ => .error "") (fun _ _ => .error "")
      "graph TD"⟩

/-- Invariant of the inline-expression loop of `processMathExpressions`:
once a formatted markup `rd` is present and a delimited literal `patd`
(which starts and ends with `$`) is absent, every further inline step keeps
it so, provided each successful markup is nonempty, contains no `$`, starts
with a character outside `patd`, and `rd` does not occur inside the step's
own delimited literal. -/
theorem mathInline_pass_invariant {katex : String → Bool → Except String String}
    {patd rd : List Char}
    (hpath : patd.head? = some '$') (hrd : '$' ∉ rd) :
    ∀ (ps : List MathExpr),
      (∀ e' ∈ ps, ∀ r', katex e'.content false = .ok r' →
        ¬ r' = "" ∧ '$' ∉ r'.data ∧
        (∀ r0, r'.data.head? = some r0 → r0 ∉ patd) ∧
        occursIn rd ("$" ++ e'.content ++ "$").data = false) →
      ∀ (h0 : String), occursIn rd h0.data = true → occursIn patd h0.data = false →
        occursIn rd (ps.foldl (mathInlineStep katex) h0).data = true ∧
        occursIn patd (ps.foldl (mathInlineStep katex) h0).data = false := by
  intro ps
  induction ps with
  | nil => intro _ h0 ha hb; exact ⟨ha, hb⟩
  | cons e' ps' ih =>
    intro hps h0 ha hb
    rw [List.foldl_cons]
    refine ih (fun x hx => hps x (List.mem_cons_of_mem e' hx)) _ ?_ ?_
    · unfold mathInlineStep
      cases hk' : katex e'.content false with
      | error m => exact ha
      | ok r' =>
        obtain ⟨h1, h2, h3, h4⟩ := hps e' (List.mem_cons_self e' ps') r' hk'
        have hpd' : ("$" ++ e'.content ++ "$").data =
            '$' :: (e'.content.data ++ ['$']) := by
          simp [String.data_append]
        have hhead' : ("$" ++ e'.content ++ "$").data.head? = some '$' := by
          rw [hpd']; rfl
        have hlast' : ("$" ++ e'.content ++ "$").data.getLast? = some '$' := by
          rw [hpd', ← List.cons_append]
          exact List.getLast?_concat _
        exact occursIn_replaceAll_keep hhead' hrd hlast' hrd h4 h0.data ha
    · unfold mathInlineStep
      cases hk' : katex e'.content false with
      | error m => exact hb
      | ok r' =>
        obtain ⟨h1, h2, h3, h4⟩ := hps e' (List.mem_cons_self e' ps') r' hk'
        rw [Bool.eq_false_iff]
        intro htr
        have hback := occursIn_of_replaceAll (string_data_ne_nil h1)
          (fun p0 hp0 => by
            rw [hpath] at hp0
            rw [← Option.some.inj hp0]
            exact h2)
          h3 h0.data htr
        rw [hb] at hback
        exact Bool.false_ne_true hback

/-- Claim C8: when the math collaborator fails on every expression, the
substitution pass returns the HTML unchanged (the original delimited text
stays in place) and does not raise.  When the collaborator succeeds on an
inline expression of the extracted list — whose delimited literal occurs in
the HTML at the moment the pass reaches it (the pass re-derives positions
from content, so earlier block and inline steps act first) — the final
output contains the formatted markup and no longer contains the literal
delimited string.  The hypotheses on markups hold for real formatter
output: each markup is nonempty HTML containing no `$` character, starts
with a character such as `<` that does not occur in the delimited literal,
and does not itself occur inside another expression's delimited literal. -/
theorem c8_math_fallback :
    (∀ (katex : String → Bool → Except String String) (html : String)
        (exprs : List MathExpr),
      (∀ e ∈ exprs, ∀ b, ∃ m, katex e.content b = .error m) →
      processMathExpressions katex html exprs = html) ∧
    (∀ (katex : String → Bool → Except String String) (html : String)
        (exprs pre post : List MathExpr) (e : MathExpr) (r : String),
      exprs.filter (fun x => x.type = MType.inline) = pre ++ e :: post →
      katex e.content false = .ok r →
      ¬ r = "" → '$' ∉ r.data →
      (∀ r0, r.data.head? = some r0 → r0 ∉ ("$" ++ e.content ++ "$").data) →
      (∀ e' ∈ post, ∀ r', katex e'.content false = .ok r' →
        ¬ r' = "" ∧ '$' ∉ r'.data ∧
        (∀ r0, r'.data.head? = some r0 → r0 ∉ ("$" ++ e.content ++ "$").data) ∧
        occursIn r.data ("$" ++ e'.content ++ "$").data = false) →
      occursIn ("$" ++ e.content ++ "$").data
        (pre.foldl (mathInlineStep katex)
          ((exprs.filter (fun x => x.type = MType.block)).foldl
            (mathBlockStep katex) html)).data = true →
      occursIn r.data (processMathExpressions katex html exprs).data = true ∧
      occursIn ("$" ++ e.content ++ "$").data
        (processMathExpressions katex html exprs).data = false) := by
  constructor
  · intro katex html exprs hk
    unfold processMathExpressions
    rw [foldl_fix (mathBlockStep katex) _ html (fun acc e he => by
      obtain ⟨m, hm⟩ := hk e (List.mem_filter.mp he).1 true
      simp [mathBlockStep, hm])]
    exact foldl_fix (mathInlineStep katex) _ html (fun acc e he => by
      obtain ⟨m, hm⟩ := hk e (List.mem_filter.mp he).1 false
      simp [mathInlineStep, hm])
  · intro katex html exprs pre post e r hsplit hk hrne hrd hrh hpost hocc
    have hpd : ("$" ++ e.content ++ "$").data = '$' :: (e.content.data ++ ['$']) := by
      simp [String.data_append]
    have hhead : ("$" ++ e.content ++ "$").data.head? = some '$' := by
      rw [hpd]; rfl
    have hne : ¬ ("$" ++ e.content ++ "$").data = [] := by
      rw [hpd]; simp
    have hout : processMathExpressions katex html exprs =
        post.foldl (mathInlineStep katex)
          (mathInlineStep katex
            (pre.foldl (mathInlineStep katex)
              ((exprs.filter (fun x => x.type = MType.block)).foldl
                (mathBlockStep katex) html)) e) := by
      unfold processMathExpressions
      rw [hsplit, List.foldl_append, List.foldl_cons]
    have hstep : mathInlineStep katex
        (pre.foldl (mathInlineStep katex)
          ((exprs.filter (fun x => x.type = MType.block)).foldl
            (mathBlockStep katex) html)) e =
        replaceAllStr ("$" ++ e.content ++ "$") r
          (pre.foldl (mathInlineStep katex)
            ((exprs.filter (fun x => x.type = MType.block)).foldl
              (mathBlockStep katex) html)) := by
      unfold mathInlineStep
      rw [hk]
    have hmid1 : occursIn r.data
        (replaceAllStr ("$" ++ e.content ++ "$") r
          (pre.foldl (mathInlineStep katex)
            ((exprs.filter (fun x => x.type = MType.block)).foldl
              (mathBlockStep katex) html))).data = true :=
      occursIn_replaceAll_rep _ _ hne _ hocc
    have hmid2 : occursIn ("$" ++ e.content ++ "$").data
        (replaceAllStr ("$" ++ e.content ++ "$") r
          (pre.foldl (mathInlineStep katex)
            ((exprs.filter (fun x => x.type = MType.block)).foldl
              (mathBlockStep katex) html))).data = false :=
      occursIn_replaceAll_pat _ _ hne (string_data_ne_nil hrne)
        (fun p0 hp0 => by
          rw [hhead] at hp0
          rw [← Option.some.inj hp0]
          exact hrd)
        hrh _
    have hmain := mathInline_pass_invariant hhead hrd post hpost
      (replaceAllStr ("$" ++ e.content ++ "$") r
        (pre.foldl (mathInlineStep katex)
          ((exprs.filter (fun x => x.type = MType.block)).foldl
            (mathBlockStep katex) html))) hmid1 hmid2
    rw [hout, hstep]
    exact ⟨hmain.1, hmain.2⟩

/-- Witness for C8: a failing collaborator leaves `<p>$a$</p>` unchanged;
on the spec's own document `<p>$E = mc^2$ and $x$</p>` with two extracted
inline expressions and a realistic KaTeX-shaped collaborator, the pass
leaves formatted markup for `E = mc^2` in the output and the literal
`$E = mc^2$` is gone. -/
theorem c8_witness :
    processMathExpressions (fun _ _ => .error "boom") "<p>$a$</p>"
      [⟨MType.block, "a", false⟩] = "<p>$a$</p>" ∧
    occursIn "<span class=\"katex\">E = mc^2</span>".data
      (processMathExpressions
        (fun s _ => .ok ("<span class=\"katex\">" ++ s ++ "</span>"))
        "<p>$E = mc^2$ and $x$</p>"
        [⟨MType.inline, "E = mc^2", false⟩, ⟨MType.inline, "x", false⟩]).data = true ∧
    occursIn ("$" ++ "E = mc^2" ++ "$").data
      (processMathExpressions
        (fun s _ => .ok ("<span class=\"katex\">" ++ s ++ "</span>"))
        "<p>$E = mc^2$ and $x$</p>"
        [⟨MType.inline, "E = mc^2", false⟩, ⟨MType.inline, "x", false⟩]).data = false := by
  have hmain := c8_math_fallback.2
    (fun s _ => .ok ("<span class=\"katex\">" ++ s ++ "</span>"))
    "<p>$E = mc^2$ and $x$</p>"
    [⟨MType.inline, "E = mc^2", false⟩, ⟨MType.inline, "x", false⟩]
    [] [⟨MType.inline, "x", false⟩] ⟨MType.inline, "E = mc^2", false⟩
    "<span class=\"katex\">E = mc^2</span>"
    rfl rfl (by decide) (by decide)
    (fun r0 h0 => by
      have h0' : some '<' = some r0 := h0
      rw [← Option.some.inj h0']
      decide)
    (fun e' he' r' hk' => by
      have he'' : e' = ⟨MType.inline, "x", false⟩ := List.mem_singleton.mp he'
      subst he''
      have hk'' : Except.ok ("<span class=\"katex\">" ++ "x" ++ "</span>")
          = Except.ok r' := hk'
      have hr'' := Except.ok.inj hk''
      subst hr''
      exact ⟨by decide, by decide,
        fun r0 h0 => by
          have h0' : some '<' = some r0 := h0
          rw [← Option.some.inj h0']
          decide,
        by decide⟩)
    (by decide)
  exact ⟨c8_math_fallback.1 (fun _ _ => .error "boom") "<p>$a$</p>"
      [⟨MType.block, "a", false⟩] (fun e _ b => ⟨"boom", rfl⟩),
    hmain.1, hmain.2⟩

end M2R
